import Mathlib

/-!
Shallow embedding of the string-interning facility of moulins/cmd-block-lang
(src/utils/interning.rs): the slab allocator (SlabAllocator), the interning
registry (Interner) and its handle type (Atom, modelled as the raw address,
a natural number).

Modelling conventions:
- Raw addresses are natural numbers counted in bytes; pointer arithmetic on
  `*mut usize` advances in units of `wordSize = size_of::<usize>() = 8` bytes
  (the reference 64-bit platform).
- The underlying memory manager (Vec::with_capacity + mem::forget) is modelled
  by a bump counter `nextFresh`: each request for a fresh buffer returns the
  current value of `nextFresh` and advances it past the buffer, so distinct
  fresh buffers occupy disjoint address ranges, which is the only property the
  source relies on.
- Written memory is modelled as an association list from block base address to
  the written Block (length header word, then the payload bytes that
  ptr::copy_nonoverlapping copied). Reading through a handle (the unsafe
  extract_interned_string) looks the base address up and takes exactly the
  header's count of payload bytes, as the source's slice::from_raw_parts does.
- Strings are byte sequences via their UTF-8 encoding: strBytes s is the list
  of bytes of s, and the header written by alloc_interned_string is s.len(),
  i.e. the UTF-8 byte size.
-/

namespace CmdBlock

/-- Byte width of one allocator element, size_of::<usize>() on the reference
64-bit platform. -/
def wordSize : Nat := 8

/-- The nominal slab byte size, const SLAB_ALLOC_SIZE: usize = 4096. -/
def SLAB_ALLOC_SIZE : Nat := 4096

/-- Division rounding up, fn div_round_up(a: usize, b: usize) -> usize. -/
def div_round_up (a b : Nat) : Nat :=
  a / b + if a % b = 0 then 0 else 1

/-- State of SlabAllocator<usize>: start and end pointers of the current slab
(byte addresses), the waste counter `lost`, plus the `nextFresh` model of the
underlying memory manager (see the module docstring). -/
structure SlabAllocator where
  start : Nat
  stop : Nat
  lost : Nat
  nextFresh : Nat
deriving Repr, DecidableEq

/-- SlabAllocator::new(): both pointers null, counter zero. -/
def SlabAllocator.new : SlabAllocator :=
  { start := 0, stop := 0, lost := 0, nextFresh := 0 }

/-- SlabAllocator::get_discarded_bytes(&self) -> usize { self.lost }. -/
def SlabAllocator.get_discarded_bytes (a : SlabAllocator) : Nat :=
  a.lost

/-- SlabAllocator::slab_free_size: (end - start) / size_of::<T>(), the free
suffix of the current slab counted in elements. -/
def SlabAllocator.slab_free_size (a : SlabAllocator) : Nat :=
  (a.stop - a.start) / wordSize

/-- SlabAllocator::slab_size: div_round_up(SLAB_ALLOC_SIZE, size_of::<T>()),
the nominal slab capacity in elements (512 for T = usize). -/
def slab_size : Nat :=
  div_round_up SLAB_ALLOC_SIZE wordSize

/-- SlabAllocator::alloc(&mut self, len: usize) -> *mut T, with T = usize.
Returns the address handed out together with the successor state. The large
path takes a dedicated fresh buffer of exactly len elements; the small path
first retires the slab when len does not fit the free suffix (adding the free
element count to lost and installing a fresh slab of slab_size elements), then
carves len elements off the front by advancing the start pointer. -/
def SlabAllocator.alloc (a : SlabAllocator) (len : Nat) : Nat × SlabAllocator :=
  if slab_size ≤ len then
    (a.nextFresh, { a with nextFresh := a.nextFresh + len * wordSize })
  else
    let b :=
      if a.slab_free_size < len then
        { a with
          lost := a.lost + a.slab_free_size,
          start := a.nextFresh,
          stop := a.nextFresh + slab_size * wordSize,
          nextFresh := a.nextFresh + slab_size * wordSize }
      else a
    (b.start, { b with start := b.start + len * wordSize })

/-- The UTF-8 bytes of a string, as natural numbers: the bytes that
ptr::copy_nonoverlapping copies from s.as_bytes(). -/
def strBytes (s : String) : List Nat :=
  s.toUTF8.data.toList.map (fun b => b.toNat)

/-- One written interned-string block: the length header word (s.len()) and
the payload bytes copied right after it. -/
structure Block where
  len : Nat
  payload : List Nat
deriving Repr, DecidableEq

/-- State of the Interner: the slab allocator, the deduplication map
(HashMap<&str, Atom>, modelled as an association list from text to handle
address, duplicate-free by construction), and the written memory blocks
indexed by base address. -/
structure Interner where
  allocator : SlabAllocator
  strings : List (String × Nat)
  memory : List (Nat × Block)

/-- Interner::new(). -/
def Interner.new : Interner :=
  { allocator := SlabAllocator.new, strings := [], memory := [] }

/-- Lookup in the deduplication map, self.strings.get(s). -/
def lookupStr : List (String × Nat) → String → Option Nat
  | [], _ => none
  | e :: es, s => if e.1 = s then some e.2 else lookupStr es s

/-- Interner::get_if_interned(&self, s) -> Option<Atom>, the read-only lookup
behind Atom::try_new. It takes &self: it can touch no registry state. -/
def Interner.get_if_interned (I : Interner) (s : String) : Option Nat :=
  lookupStr I.strings s

/-- Number of usize words requested from the allocator for a string s:
1 + div_round_up(s.len(), size_of::<usize>()), one word for the length header
plus rounded-up words for the payload. -/
def wordsFor (s : String) : Nat :=
  1 + div_round_up s.utf8ByteSize wordSize

/-- Interner::alloc_interned_string: request a buffer of wordsFor s words,
write the length header s.len() and copy the payload bytes, and wrap the base
address into an Atom. -/
def Interner.alloc_interned_string (I : Interner) (s : String) : Nat × Interner :=
  let r := I.allocator.alloc (wordsFor s)
  (r.1,
   { I with
     allocator := r.2,
     memory := (r.1, { len := s.utf8ByteSize, payload := strBytes s }) :: I.memory })

/-- Reading memory through a block base address: find the block written at ptr,
read its header word len, and take exactly len payload bytes, as the source's
slice::from_raw_parts(ptr.offset(1) as *const u8, len) does. An address no
block was written at is undefined behaviour in the source; the model returns
the empty byte list there. -/
def extractMem : List (Nat × Block) → Nat → List Nat
  | [], _ => []
  | e :: es, ptr => if e.1 = ptr then e.2.payload.take e.2.len else extractMem es ptr

/-- Interner::extract_interned_string(ptr), the decode operation behind
Atom::as_str, as the byte sequence it reinterprets as &str. -/
def Interner.extract_interned_string (I : Interner) (ptr : Nat) : List Nat :=
  extractMem I.memory ptr

/-- Interner::intern(&mut self, s) -> Atom: return the existing handle on a
hit, otherwise allocate a new block and insert the (text, handle) pair into
the deduplication map. -/
def Interner.intern (I : Interner) (s : String) : Nat × Interner :=
  match I.get_if_interned s with
  | some a => (a, I)
  | none =>
    let r := I.alloc_interned_string s
    (r.1, { r.2 with strings := (s, r.1) :: r.2.strings })

/-- Run a sequence of intern calls from a given state (each call holds the
write lock for its whole duration, so any concurrent execution is some
serialization, i.e. some such sequence). -/
def runInternsFrom (I : Interner) (ss : List String) : Interner :=
  ss.foldl (fun J s => (J.intern s).2) I

/-- Run a sequence of intern calls from the freshly initialised registry. -/
def runInterns (ss : List String) : Interner :=
  runInternsFrom Interner.new ss

/-- Handle addresses currently registered in the deduplication map. -/
def Interner.atoms (I : Interner) : List Nat :=
  I.strings.map (fun e => e.2)

/-- Allocator address discipline relative to a set S of already handed-out
block base addresses: the slab pointers are ordered and below the fresh
bound, and every handed-out address lies either strictly inside the already
consumed part of the current slab or in an older, fully retired region. -/
def AllocInv (a : SlabAllocator) (S : List Nat) : Prop :=
  a.start ≤ a.stop ∧ a.stop ≤ a.nextFresh ∧
  ∀ p ∈ S, p < a.start ∨ (a.stop ≤ p ∧ p < a.nextFresh)

/-- Well-formedness of a reachable Interner state: the allocator address
discipline over the registered handles, every written block is registered,
every registered (text, handle) pair decodes to exactly that text, and the
deduplication map is injective in both directions (text equality iff handle
equality). -/
structure Interner.Wf (I : Interner) : Prop where
  allocInv : AllocInv I.allocator I.atoms
  memAddrs : ∀ e ∈ I.memory, e.1 ∈ I.atoms
  decodeOk : ∀ e ∈ I.strings, I.extract_interned_string e.2 = strBytes e.1
  inj : ∀ e ∈ I.strings, ∀ f ∈ I.strings, (e.1 = f.1 ↔ e.2 = f.2)

/-! ### Allocator lemmas -/

/-- The slab capacity in elements evaluates to 4096 / 8 = 512. -/
theorem slab_size_eq : slab_size = 512 := by decide

/-- The waste counter never decreases across one alloc call. -/
theorem lost_le_alloc (a : SlabAllocator) (len : Nat) :
    a.lost ≤ ((a.alloc len).2).lost := by
  by_cases h : slab_size ≤ len
  · simp [SlabAllocator.alloc, if_pos h]
  · by_cases h2 : a.slab_free_size < len
    · simp [SlabAllocator.alloc, if_neg h, if_pos h2]
    · simp [SlabAllocator.alloc, if_neg h, if_neg h2]

/-- The slab pointer order start ≤ end is preserved by one alloc call. -/
theorem alloc_start_le_stop (a : SlabAllocator) (len : Nat) (h : a.start ≤ a.stop) :
    ((a.alloc len).2).start ≤ ((a.alloc len).2).stop := by
  by_cases hbig : slab_size ≤ len
  · simpa [SlabAllocator.alloc, if_pos hbig] using h
  · by_cases h2 : a.slab_free_size < len
    · simp only [SlabAllocator.alloc, if_neg hbig, if_pos h2]
      have : len * wordSize ≤ slab_size * wordSize :=
        Nat.mul_le_mul_right _ (Nat.le_of_lt (Nat.not_le.mp hbig))
      omega
    · simp only [SlabAllocator.alloc, if_neg hbig, if_neg h2]
      have hle : len ≤ (a.stop - a.start) / wordSize := Nat.not_lt.mp h2
      have : len * wordSize ≤ a.stop - a.start :=
        (Nat.le_div_iff_mul_le (by decide : 0 < wordSize)).mp hle
      omega

/-- Expected behaviour of one small allocation: on the retire path the waste
counter grows by the old free suffix and a fresh slab of exactly slab_size
elements becomes active with its base returned and the cursor advanced by len
elements past it; on the fitting path the pre-advance cursor is returned, the
cursor advances by len elements and end and waste stay put. -/
def SmallAllocSpec (a : SlabAllocator) (len : Nat) : Prop :=
  (a.slab_free_size < len →
    (a.alloc len).2.lost = a.lost + a.slab_free_size ∧
    (a.alloc len).1 = a.nextFresh ∧
    (a.alloc len).2.start = a.nextFresh + len * wordSize ∧
    (a.alloc len).2.stop = a.nextFresh + slab_size * wordSize) ∧
  (len ≤ a.slab_free_size →
    (a.alloc len).1 = a.start ∧
    (a.alloc len).2.start = a.start + len * wordSize ∧
    (a.alloc len).2.stop = a.stop ∧
    (a.alloc len).2.lost = a.lost)

/-- C4: for every small allocation request (1 ≤ count < slab capacity), a
too-small free suffix makes the waste counter grow by exactly that free
element count and installs a fresh slab of exactly the nominal capacity, after
which (and directly, when the request fits) the pre-advance cursor address is
returned and the cursor advances by exactly count elements. -/
theorem alloc_small_spec (a : SlabAllocator) (len : Nat)
    (_h1 : 1 ≤ len) (h2 : len < slab_size) :
    SmallAllocSpec a len := by
  have hbig : ¬ slab_size ≤ len := Nat.not_le.mpr h2
  constructor
  · intro hfree
    simp [SmallAllocSpec, SlabAllocator.alloc, if_neg hbig, if_pos hfree]
  · intro hfit
    have hfree : ¬ a.slab_free_size < len := Nat.not_lt.mpr hfit
    simp [SmallAllocSpec, SlabAllocator.alloc, if_neg hbig, if_neg hfree]

/-- Witness for alloc_small_spec at the fresh allocator and count 3. -/
theorem alloc_small_spec_witness :
    (1 ≤ 3 ∧ 3 < slab_size) ∧ SmallAllocSpec SlabAllocator.new 3 :=
  ⟨by decide, alloc_small_spec SlabAllocator.new 3 (by decide) (by decide)⟩

/-- C5: an allocation request of at least the slab capacity takes the
large-object path: a dedicated fresh buffer of exactly count elements is
obtained from the underlying memory manager and returned, and the cursor, the
slab end and the waste counter are all left unchanged. -/
theorem alloc_large_spec (a : SlabAllocator) (len : Nat) (h : slab_size ≤ len) :
    (a.alloc len).1 = a.nextFresh ∧
    (a.alloc len).2.nextFresh = a.nextFresh + len * wordSize ∧
    (a.alloc len).2.start = a.start ∧
    (a.alloc len).2.stop = a.stop ∧
    (a.alloc len).2.lost = a.lost := by
  simp [SlabAllocator.alloc, if_pos h]

/-- Witness for alloc_large_spec at the fresh allocator and count slab_size. -/
theorem alloc_large_spec_witness :
    slab_size ≤ slab_size ∧
    ((SlabAllocator.new.alloc slab_size).1 = SlabAllocator.new.nextFresh ∧
     (SlabAllocator.new.alloc slab_size).2.nextFresh
        = SlabAllocator.new.nextFresh + slab_size * wordSize ∧
     (SlabAllocator.new.alloc slab_size).2.start = SlabAllocator.new.start ∧
     (SlabAllocator.new.alloc slab_size).2.stop = SlabAllocator.new.stop ∧
     (SlabAllocator.new.alloc slab_size).2.lost = SlabAllocator.new.lost) :=
  ⟨Nat.le_refl _, alloc_large_spec SlabAllocator.new slab_size (Nat.le_refl _)⟩

/-- C6: the boundary scenario of the allocator unit test, fully evaluated:
after allocating 100, 200 and exactly slab_size elements from a fresh
allocator the free suffix is slab_size - 300 and nothing is discarded; a
second slab_size-sized request takes the large path and leaves the slab state
untouched; a subsequent request of slab_size - 1 retires the slab, discarding
slab_size - 300, and leaves a free suffix of 1 element. -/
theorem allocator_boundary_scenario :
    (((((SlabAllocator.new.alloc 100).2.alloc 200).2.alloc slab_size).2).slab_free_size
        = slab_size - 300 ∧
     ((((SlabAllocator.new.alloc 100).2.alloc 200).2.alloc slab_size).2).get_discarded_bytes
        = 0) ∧
    (((((SlabAllocator.new.alloc 100).2.alloc 200).2.alloc slab_size).2.alloc slab_size).2.get_discarded_bytes
        = 0 ∧
     ((((SlabAllocator.new.alloc 100).2.alloc 200).2.alloc slab_size).2.alloc slab_size).2.start
        = ((((SlabAllocator.new.alloc 100).2.alloc 200).2.alloc slab_size).2).start ∧
     ((((SlabAllocator.new.alloc 100).2.alloc 200).2.alloc slab_size).2.alloc slab_size).2.stop
        = ((((SlabAllocator.new.alloc 100).2.alloc 200).2.alloc slab_size).2).stop) ∧
    ((((((SlabAllocator.new.alloc 100).2.alloc 200).2.alloc slab_size).2.alloc slab_size).2.alloc (slab_size - 1)).2.get_discarded_bytes
        = slab_size - 300 ∧
     (((((SlabAllocator.new.alloc 100).2.alloc 200).2.alloc slab_size).2.alloc slab_size).2.alloc (slab_size - 1)).2.slab_free_size
        = 1) := by
  decide

/-- C8: the allocator invariant: the pointer order cursor ≤ end holds at
construction and is preserved by every alloc call, and the waste counter never
decreases, neither across one call nor across any sequence of calls. -/
theorem allocator_invariant :
    (SlabAllocator.new.start ≤ SlabAllocator.new.stop) ∧
    (∀ (a : SlabAllocator) (len : Nat), a.start ≤ a.stop →
      ((a.alloc len).2.start ≤ (a.alloc len).2.stop ∧
       a.lost ≤ (a.alloc len).2.lost)) ∧
    (∀ (a : SlabAllocator) (reqs : List Nat),
      a.lost ≤ (reqs.foldl (fun b len => (b.alloc len).2) a).lost) := by
  refine ⟨Nat.le_refl _, fun a len h => ⟨alloc_start_le_stop a len h, lost_le_alloc a len⟩, ?_⟩
  intro a reqs
  induction reqs generalizing a with
  | nil => exact Nat.le_refl _
  | cons len rest ih =>
    exact Nat.le_trans (lost_le_alloc a len) (ih ((a.alloc len).2))

/-- Witness for allocator_invariant at the fresh allocator and count 5. -/
theorem allocator_invariant_witness :
    SlabAllocator.new.start ≤ SlabAllocator.new.stop ∧
    ((SlabAllocator.new.alloc 5).2.start ≤ (SlabAllocator.new.alloc 5).2.stop ∧
     SlabAllocator.new.lost ≤ (SlabAllocator.new.alloc 5).2.lost) :=
  ⟨by decide, allocator_invariant.2.1 SlabAllocator.new 5 (by decide)⟩

/-- C3 counterexample: get_discarded_bytes returns the raw count of discarded
elements, not that count multiplied by the element width. After allocating 100
and then 500 elements from a fresh allocator, exactly 412 elements have been
discarded, and the query answers 412, not 412 * wordSize. -/
theorem get_discarded_bytes_counterexample :
    ((SlabAllocator.new.alloc 100).2.alloc 500).2.get_discarded_bytes = 412 ∧
    ((SlabAllocator.new.alloc 100).2.alloc 500).2.get_discarded_bytes ≠ 412 * wordSize := by
  decide

/-- C3 amended: the cumulative waste counter returned by get_discarded_bytes
grows by exactly the discarded element count (the retired slab's free suffix,
not multiplied by the element width) on every retiring small allocation. -/
theorem get_discarded_bytes_amended (a : SlabAllocator) (len : Nat)
    (h2 : len < slab_size) (hfree : a.slab_free_size < len) :
    (a.alloc len).2.get_discarded_bytes = a.get_discarded_bytes + a.slab_free_size := by
  have hbig : ¬ slab_size ≤ len := Nat.not_le.mpr h2
  simp [SlabAllocator.alloc, SlabAllocator.get_discarded_bytes, if_neg hbig, if_pos hfree]

/-- Witness for get_discarded_bytes_amended at the fresh allocator, count 1. -/
theorem get_discarded_bytes_amended_witness :
    (1 < slab_size ∧ SlabAllocator.new.slab_free_size < 1) ∧
    (SlabAllocator.new.alloc 1).2.get_discarded_bytes
      = SlabAllocator.new.get_discarded_bytes + SlabAllocator.new.slab_free_size :=
  ⟨by decide, get_discarded_bytes_amended SlabAllocator.new 1 (by decide) (by decide)⟩

/-- Shape of one alloc call on the large-object path. -/
theorem alloc_eq_large (a : SlabAllocator) (len : Nat) (h : slab_size ≤ len) :
    a.alloc len = (a.nextFresh, { a with nextFresh := a.nextFresh + len * wordSize }) := by
  simp [SlabAllocator.alloc, if_pos h]

/-- Shape of one alloc call on the small path when the slab is retired. -/
theorem alloc_eq_retire (a : SlabAllocator) (len : Nat) (h : ¬ slab_size ≤ len)
    (hfree : a.slab_free_size < len) :
    a.alloc len =
      (a.nextFresh,
       { start := a.nextFresh + len * wordSize,
         stop := a.nextFresh + slab_size * wordSize,
         lost := a.lost + a.slab_free_size,
         nextFresh := a.nextFresh + slab_size * wordSize }) := by
  simp [SlabAllocator.alloc, if_neg h, if_pos hfree]

/-- Shape of one alloc call on the small path when the request fits. -/
theorem alloc_eq_fit (a : SlabAllocator) (len : Nat) (h : ¬ slab_size ≤ len)
    (hfree : ¬ a.slab_free_size < len) :
    a.alloc len = (a.start, { a with start := a.start + len * wordSize }) := by
  simp [SlabAllocator.alloc, if_neg h, if_neg hfree]

/-- Freshness of allocation: under the address discipline over the addresses
handed out so far, an alloc call with a positive element count returns an
address distinct from all of them, and the discipline is preserved with the
new address recorded. -/
theorem alloc_fresh (a : SlabAllocator) (S : List Nat) (len : Nat)
    (hInv : AllocInv a S) (hlen : 1 ≤ len) :
    (a.alloc len).1 ∉ S ∧ AllocInv (a.alloc len).2 ((a.alloc len).1 :: S) := by
  obtain ⟨h1, h2, h3⟩ := hInv
  by_cases hbig : slab_size ≤ len
  · rw [alloc_eq_large a len hbig]
    unfold AllocInv
    dsimp only
    simp only [wordSize]
    refine ⟨fun hmem => ?_, h1, by omega, fun p hp => ?_⟩
    · rcases h3 _ hmem with h | h <;> omega
    · rcases List.mem_cons.mp hp with rfl | hp
      · right; omega
      · rcases h3 _ hp with h | h
        · left; omega
        · right; omega
  · by_cases hfree : a.slab_free_size < len
    · rw [alloc_eq_retire a len hbig hfree]
      unfold AllocInv
      dsimp only
      simp only [wordSize, slab_size_eq]
      have hlt : len < 512 := by
        have := Nat.not_le.mp hbig
        simpa [slab_size_eq] using this
      refine ⟨fun hmem => ?_, by omega, by omega, fun p hp => ?_⟩
      · rcases h3 _ hmem with h | h <;> omega
      · rcases List.mem_cons.mp hp with rfl | hp
        · left; omega
        · rcases h3 _ hp with h | h <;> (left; omega)
    · rw [alloc_eq_fit a len hbig hfree]
      unfold AllocInv
      dsimp only
      simp only [wordSize]
      have hle : len ≤ (a.stop - a.start) / 8 := by
        have := Nat.not_lt.mp hfree
        simpa [SlabAllocator.slab_free_size, wordSize] using this
      refine ⟨fun hmem => ?_, by omega, h2, fun p hp => ?_⟩
      · rcases h3 _ hmem with h | h <;> omega
      · rcases List.mem_cons.mp hp with rfl | hp
        · left; omega
        · rcases h3 _ hp with h | h
          · left; omega
          · right; omega

/-! ### Interner lemmas -/

/-- Membership from a successful lookup in the deduplication map. -/
theorem lookupStr_some_mem {l : List (String × Nat)} {s : String} {p : Nat}
    (h : lookupStr l s = some p) : (s, p) ∈ l := by
  induction l with
  | nil => simp [lookupStr] at h
  | cons e es ih =>
    obtain ⟨t, q⟩ := e
    by_cases ht : t = s
    · subst ht
      simp [lookupStr] at h
      subst h
      exact List.mem_cons_self _ _
    · simp only [lookupStr, if_neg ht] at h
      exact List.mem_cons_of_mem _ (ih h)

/-- Absence of any binding from a failed lookup in the deduplication map. -/
theorem not_mem_of_lookupStr_none {l : List (String × Nat)} {s : String}
    (h : lookupStr l s = none) : ∀ p, (s, p) ∉ l := by
  induction l with
  | nil => intro p hp; simp at hp
  | cons e es ih =>
    obtain ⟨t, q⟩ := e
    by_cases ht : t = s
    · subst ht; simp [lookupStr] at h
    · simp only [lookupStr, if_neg ht] at h
      intro p hp
      rcases List.mem_cons.mp hp with hEq | hp
      · exact ht (congrArg Prod.fst hEq).symm
      · exact ih h p hp

/-- Shape of intern on a hit: the existing handle, state untouched. -/
theorem intern_hit (I : Interner) (s : String) (a : Nat)
    (h : I.get_if_interned s = some a) : I.intern s = (a, I) := by
  unfold Interner.intern
  rw [h]

/-- Shape of intern on a miss: a block of wordsFor s words is allocated, the
length header and payload are written at its base address, and the pair of the
text and the new handle is pushed onto the deduplication map. -/
theorem intern_miss (I : Interner) (s : String)
    (h : I.get_if_interned s = none) :
    I.intern s =
      ((I.allocator.alloc (wordsFor s)).1,
       { allocator := (I.allocator.alloc (wordsFor s)).2,
         strings := (s, (I.allocator.alloc (wordsFor s)).1) :: I.strings,
         memory := ((I.allocator.alloc (wordsFor s)).1,
                    { len := s.utf8ByteSize, payload := strBytes s }) :: I.memory }) := by
  unfold Interner.intern
  rw [h]
  rfl

/-- Length of the byte sequence of a string is its UTF-8 byte size. -/
theorem length_strBytes (s : String) : (strBytes s).length = s.utf8ByteSize := by
  have h := String.size_toUTF8 s
  simpa [strBytes, ByteArray.size] using h

/-- Taking the header's count of payload bytes of a full block recovers the
whole payload. -/
theorem take_strBytes (s : String) : (strBytes s).take s.utf8ByteSize = strBytes s := by
  rw [← length_strBytes]
  exact List.take_length _

/-- Reading at the base address of the newest block yields its payload cut to
its header. -/
theorem extractMem_head (m : List (Nat × Block)) (p : Nat) (b : Block) :
    extractMem ((p, b) :: m) p = b.payload.take b.len := by
  simp [extractMem]

/-- Reading at any other address skips the newest block. -/
theorem extractMem_ne (m : List (Nat × Block)) (p q : Nat) (b : Block)
    (h : p ≠ q) : extractMem ((p, b) :: m) q = extractMem m q := by
  simp [extractMem, h]

/-- One positive word is always requested for a string. -/
theorem one_le_wordsFor (s : String) : 1 ≤ wordsFor s :=
  Nat.le_add_right 1 _

/-- Interning always leaves its own text bound to the returned handle. -/
theorem get_if_interned_intern_self (I : Interner) (s : String) :
    (I.intern s).2.get_if_interned s = some (I.intern s).1 := by
  cases h : I.get_if_interned s with
  | some a => rw [intern_hit I s a h]; exact h
  | none =>
    rw [intern_miss I s h]
    simp [Interner.get_if_interned, lookupStr]

/-- Interning any text preserves every existing binding. -/
theorem get_if_interned_intern_of_some (I : Interner) (s t : String) (a : Nat)
    (h : I.get_if_interned t = some a) :
    (I.intern s).2.get_if_interned t = some a := by
  cases hs : I.get_if_interned s with
  | some b => rw [intern_hit I s b hs]; exact h
  | none =>
    have hne : s ≠ t := by
      intro hEq
      subst hEq
      rw [hs] at h
      exact Option.noConfusion h
    rw [intern_miss I s hs]
    simpa [Interner.get_if_interned, lookupStr, if_neg hne] using h

/-- Interning a different text preserves the absence of a binding. -/
theorem get_if_interned_intern_of_ne_none (I : Interner) (s t : String)
    (hne : s ≠ t) (h : I.get_if_interned t = none) :
    (I.intern s).2.get_if_interned t = none := by
  cases hs : I.get_if_interned s with
  | some b => rw [intern_hit I s b hs]; exact h
  | none =>
    rw [intern_miss I s hs]
    simpa [Interner.get_if_interned, lookupStr, if_neg hne] using h

/-- Well-formedness is preserved by one intern call. -/
theorem intern_wf (I : Interner) (hWf : I.Wf) (s : String) : (I.intern s).2.Wf := by
  cases h : I.get_if_interned s with
  | some a => rw [intern_hit I s a h]; exact hWf
  | none =>
    rw [intern_miss I s h]
    have hfresh :=
      alloc_fresh I.allocator I.atoms (wordsFor s) hWf.allocInv (one_le_wordsFor s)
    have hnot : ∀ q, (s, q) ∉ I.strings := not_mem_of_lookupStr_none h
    constructor
    · exact hfresh.2
    · intro e he
      rcases List.mem_cons.mp he with rfl | he
      · exact List.mem_cons_self _ _
      · exact List.mem_cons_of_mem _ (hWf.memAddrs e he)
    · intro e he
      rcases List.mem_cons.mp he with rfl | he
      · show extractMem _ _ = _
        rw [extractMem_head]
        exact take_strBytes s
      · show extractMem _ _ = _
        have hq : e.2 ∈ I.atoms := List.mem_map_of_mem _ he
        have hne : (I.allocator.alloc (wordsFor s)).1 ≠ e.2 := by
          intro hEq
          exact hfresh.1 (hEq ▸ hq)
        rw [extractMem_ne _ _ _ _ hne]
        exact hWf.decodeOk e he
    · intro e he f hf
      obtain ⟨t1, q1⟩ := e
      obtain ⟨t2, q2⟩ := f
      rcases List.mem_cons.mp he with h1 | h1 <;> rcases List.mem_cons.mp hf with h2 | h2
      · rw [Prod.mk.injEq] at h1 h2
        obtain ⟨rfl, rfl⟩ := h1
        obtain ⟨ht, hq⟩ := h2
        exact iff_of_true ht.symm hq.symm
      · rw [Prod.mk.injEq] at h1
        obtain ⟨rfl, rfl⟩ := h1
        refine iff_of_false (fun hEq => ?_) (fun hEq => ?_)
        · replace hEq : t1 = t2 := hEq
          subst hEq
          exact hnot q2 h2
        · replace hEq : (I.allocator.alloc (wordsFor t1)).1 = q2 := hEq
          rw [hEq] at hfresh
          exact hfresh.1 (List.mem_map_of_mem (fun x => x.2) h2)
      · rw [Prod.mk.injEq] at h2
        obtain ⟨rfl, rfl⟩ := h2
        refine iff_of_false (fun hEq => ?_) (fun hEq => ?_)
        · replace hEq : t1 = t2 := hEq
          subst hEq
          exact hnot q1 h1
        · replace hEq : q1 = (I.allocator.alloc (wordsFor t2)).1 := hEq
          rw [← hEq] at hfresh
          exact hfresh.1 (List.mem_map_of_mem (fun x => x.2) h1)
      · exact hWf.inj _ h1 _ h2

/-- Well-formedness of the freshly initialised registry. -/
theorem interner_new_wf : Interner.new.Wf := by
  refine ⟨⟨Nat.le_refl 0, Nat.le_refl 0, ?_⟩, ?_, ?_, ?_⟩ <;>
    simp [Interner.new, Interner.atoms]

/-- A some-binding survives any further sequence of intern calls. -/
theorem get_if_interned_run_of_some (ss : List String) :
    ∀ (I : Interner) (t : String) (a : Nat), I.get_if_interned t = some a →
      (runInternsFrom I ss).get_if_interned t = some a := by
  induction ss with
  | nil => intro I t a h; exact h
  | cons u rest ih =>
    intro I t a h
    exact ih _ t a (get_if_interned_intern_of_some I u t a h)

/-- A missing binding survives any sequence of intern calls that never interns
the text in question. -/
theorem get_if_interned_run_of_none (ss : List String) :
    ∀ (I : Interner) (t : String), t ∉ ss → I.get_if_interned t = none →
      (runInternsFrom I ss).get_if_interned t = none := by
  induction ss with
  | nil => intro I t _ h; exact h
  | cons u rest ih =>
    intro I t hmem h
    have hne : u ≠ t := fun hEq => hmem (hEq ▸ List.mem_cons_self u rest)
    exact ih _ t (fun hm => hmem (List.mem_cons_of_mem u hm))
      (get_if_interned_intern_of_ne_none I u t hne h)

/-! ### Claim theorems about the interning registry -/

/-- C1: for every string s and every reachable (well-formed) registry state,
the handle returned by intern(s) decodes, via the written length header and
the copied payload bytes, to exactly the UTF-8 bytes of s. -/
theorem decode_intern (I : Interner) (hWf : I.Wf) (s : String) :
    (I.intern s).2.extract_interned_string (I.intern s).1 = strBytes s := by
  have hWf2 := intern_wf I hWf s
  have hmem : (s, (I.intern s).1) ∈ (I.intern s).2.strings :=
    lookupStr_some_mem (get_if_interned_intern_self I s)
  exact hWf2.decodeOk _ hmem

/-- Witness for decode_intern at the fresh registry and the string ab. -/
theorem decode_intern_witness :
    Interner.new.Wf ∧
    (Interner.new.intern "ab").2.extract_interned_string (Interner.new.intern "ab").1
      = strBytes "ab" :=
  ⟨interner_new_wf, decode_intern Interner.new interner_new_wf "ab"⟩

/-- C2: interning two strings in sequence from any reachable (well-formed)
registry state returns equal handles if and only if the strings are equal:
repeated interning of the same text returns the identical handle, and
distinct texts get distinct handles. -/
theorem intern_handle_eq_iff (I : Interner) (hWf : I.Wf) (s1 s2 : String) :
    ((I.intern s1).2.intern s2).1 = (I.intern s1).1 ↔ s1 = s2 := by
  have hWf1 := intern_wf I hWf s1
  have hmem1 : (s1, (I.intern s1).1) ∈ (I.intern s1).2.strings :=
    lookupStr_some_mem (get_if_interned_intern_self I s1)
  cases h : (I.intern s1).2.get_if_interned s2 with
  | some a2 =>
    rw [intern_hit _ s2 a2 h]
    have hmem2 : (s2, a2) ∈ (I.intern s1).2.strings := lookupStr_some_mem h
    have hinj := hWf1.inj (s2, a2) hmem2 (s1, (I.intern s1).1) hmem1
    replace hinj : s2 = s1 ↔ a2 = (I.intern s1).1 := hinj
    exact ⟨fun hEq => (hinj.mpr hEq).symm, fun hEq => hinj.mp hEq.symm⟩
  | none =>
    rw [intern_miss _ s2 h]
    have hfresh :=
      (alloc_fresh (I.intern s1).2.allocator (I.intern s1).2.atoms (wordsFor s2)
        hWf1.allocInv (one_le_wordsFor s2)).1
    have ha1 : (I.intern s1).1 ∈ (I.intern s1).2.atoms :=
      List.mem_map_of_mem (fun x => x.2) hmem1
    refine iff_of_false (fun hEq => ?_) (fun hEq => ?_)
    · replace hEq : ((I.intern s1).2.allocator.alloc (wordsFor s2)).1 = (I.intern s1).1 := hEq
      exact hfresh (hEq ▸ ha1)
    · subst hEq
      exact not_mem_of_lookupStr_none h _ hmem1

/-- Witness for intern_handle_eq_iff at the fresh registry and strings a, b. -/
theorem intern_handle_eq_iff_witness :
    Interner.new.Wf ∧
    (((Interner.new.intern "a").2.intern "b").1 = (Interner.new.intern "a").1 ↔ "a" = "b") :=
  ⟨interner_new_wf, intern_handle_eq_iff Interner.new interner_new_wf "a" "b"⟩

/-- C7: the read-only lookup behind try_intern answers nothing on any run that
never interned the text, and after an intern of the text it answers exactly
the handle that intern call produced, no matter which further intern calls
follow; being a function of the state alone (&self), it creates no block and
changes no registry state. -/
theorem try_intern_spec (s : String) :
    (∀ ss : List String, s ∉ ss → (runInterns ss).get_if_interned s = none) ∧
    (∀ (I : Interner) (ss : List String),
      (runInternsFrom (I.intern s).2 ss).get_if_interned s = some (I.intern s).1) := by
  constructor
  · intro ss hss
    exact get_if_interned_run_of_none ss Interner.new s hss rfl
  · intro I ss
    exact get_if_interned_run_of_some ss (I.intern s).2 s (I.intern s).1
      (get_if_interned_intern_self I s)

/-- Witness for try_intern_spec: before any intern of bar the lookup answers
nothing on the foo-only run, and after interning bar it answers its handle. -/
theorem try_intern_spec_witness :
    (("bar" : String) ∉ ["foo"]) ∧
    (runInterns ["foo"]).get_if_interned "bar" = none ∧
    (runInternsFrom (Interner.new.intern "bar").2 ["foo"]).get_if_interned "bar"
      = some (Interner.new.intern "bar").1 :=
  ⟨by decide, (try_intern_spec "bar").1 ["foo"] (by decide),
    (try_intern_spec "bar").2 Interner.new ["foo"]⟩

/-- C10: interning the empty string on a state that has not seen it yet still
creates a block: exactly one word is requested from the allocator (the length
header holding 0 and no payload words), one block is appended to memory, and
the returned handle decodes to the empty byte sequence. -/
theorem intern_empty_string (I : Interner) (h : I.get_if_interned "" = none) :
    wordsFor "" = 1 ∧
    (I.intern "").2.memory.length = I.memory.length + 1 ∧
    (I.intern "").2.memory.head? = some ((I.intern "").1, { len := 0, payload := [] }) ∧
    (I.intern "").2.extract_interned_string (I.intern "").1 = strBytes "" := by
  rw [intern_miss I "" h]
  refine ⟨by decide, by simp, ?_, ?_⟩
  · have h1 : "".utf8ByteSize = 0 := by decide
    have h2 : strBytes "" = [] := by decide
    simp [h1, h2]
  · show extractMem _ _ = _
    rw [extractMem_head]
    exact take_strBytes ""

/-- Witness for intern_empty_string at the fresh registry. -/
theorem intern_empty_string_witness :
    Interner.new.get_if_interned "" = none ∧
    (wordsFor "" = 1 ∧
     (Interner.new.intern "").2.memory.length = Interner.new.memory.length + 1 ∧
     (Interner.new.intern "").2.memory.head?
        = some ((Interner.new.intern "").1, { len := 0, payload := [] }) ∧
     (Interner.new.intern "").2.extract_interned_string (Interner.new.intern "").1
        = strBytes "") :=
  ⟨rfl, intern_empty_string Interner.new rfl⟩

end CmdBlock
